import Mathlib

/-!
Verification of the normalization-and-matching engine of the panta-data
repository (src/data_processor.py), as a shallow embedding.  Strings are
modelled as Lean `String` / `List Char`; pandas numeric cells that can be
NaN are modelled as `Option Int`; real-valued fuzzy scores are modelled as
exact rationals `ℚ`.  Functions keep the source's names (snake case,
leading underscores dropped) where Lean allows it.
-/

/-- Whitespace as matched by the source's `\s` regexes and `str.strip()`
(the ASCII whitespace characters; the exotic Unicode space code points do
not occur in any input considered here). -/
def isWs (c : Char) : Bool :=
  c = ' ' || c = '\t' || c = '\n' || c = '\r' || c = '\x0b' || c = '\x0c'

/-- `text.replace("ي", "ی").replace("ك", "ک")` — one character of the
Arabic-to-Persian unification used throughout `data_processor.py`. -/
def unifyChar (c : Char) : Char :=
  if c = 'ي' then 'ی' else if c = 'ك' then 'ک' else c

/-- Removal of a trailing whitespace run (the right half of Python's
`str.strip()`), written structurally. -/
def trimTrail : List Char → List Char
  | [] => []
  | c :: cs =>
    let r := trimTrail cs
    if r = [] ∧ isWs c then [] else c :: r

/-- Python's `str.strip()`: drop the leading and the trailing whitespace
run. -/
def trimWs (l : List Char) : List Char :=
  trimTrail (l.dropWhile isWs)

/-- `re.sub(r'\s+', ' ', text)`: each maximal whitespace run becomes one
space. -/
def collapseWs : List Char → List Char
  | [] => []
  | [c] => if isWs c then [' '] else [c]
  | c1 :: c2 :: rest =>
    if isWs c1 ∧ isWs c2 then collapseWs (c2 :: rest)
    else (if isWs c1 then ' ' else c1) :: collapseWs (c2 :: rest)

/-- `str.split()` with no separator: split on whitespace runs, dropping
empty pieces.  `cur` is the (reversed) word being accumulated. -/
def splitWsAux : List Char → List Char → List (List Char)
  | [], cur => if cur = [] then [] else [cur.reverse]
  | c :: rest, cur =>
    if isWs c then
      if cur = [] then splitWsAux rest [] else cur.reverse :: splitWsAux rest []
    else splitWsAux rest (c :: cur)

def splitWs (l : List Char) : List (List Char) :=
  splitWsAux l []

/-- Does `p` start the list `l`? (helper for the substring test that
models Python's `in` on strings). -/
def startsWith : List Char → List Char → Bool
  | [], _ => true
  | _ :: _, [] => false
  | a :: as, b :: bs => a = b && startsWith as bs

/-- Python's `p in l` on strings: `p` occurs contiguously in `l`. -/
def isSubstrOf (p : List Char) : List Char → Bool
  | [] => startsWith p []
  | b :: bs => startsWith p (b :: bs) || isSubstrOf p bs

/-- `DataProcessor._normalize_text`: unify ي/ك, turn zero-width
non-joiners into spaces, collapse whitespace runs, strip, lower-case.
Returns `""` for the literal string `"nan"` (the non-string guard of the
source cannot arise, every input here is a string). -/
def normalize_text (s : String) : String :=
  if s = "nan" then ""
  else
    String.mk
      (((trimWs (collapseWs
          ((s.toList.map unifyChar).map
            (fun c => if c = '\u200c' then ' ' else c))))).map Char.toLower)

/-- The `formal_keywords` list of `DataProcessor._normalize_state`. -/
def formal_keywords : List String :=
  ["رسمی", "رسمي", "formal", "official", "فاکتور", "invoice"]

/-- The `informal_keywords` list of `DataProcessor._normalize_state`. -/
def informal_keywords : List String :=
  ["غیررسمی", "غیررسمي", "غیرّسمی", "غیرسمی", "informal", "unofficial",
   "پیشفاکتور", "پیش\u200cفاکتور", "proforma"]

/-- `k.replace(" ", "").replace("‌", "").lower()` applied to each
keyword in `_normalize_state`. -/
def normKeyword (k : String) : List Char :=
  (k.toList.filter (fun c => !(c = ' ' || c = '\u200c'))).map Char.toLower

def formal_normalized : List (List Char) := formal_keywords.map normKeyword

def informal_normalized : List (List Char) := informal_keywords.map normKeyword

/-- The characters removed when `_normalize_state` builds `s_no_space`:
`s.replace(" ","").replace("‌","").replace("\t","").replace("\n","").replace("\r","")`. -/
def isStateSpace (c : Char) : Bool :=
  c = ' ' || c = '\u200c' || c = '\t' || c = '\n' || c = '\r'

/-- The `s_lower` value of `_normalize_state` for input `s`: strip, unify
ي/ك, remove the space-like characters, lower-case. -/
def stateLower (s : String) : List Char :=
  (((trimWs s.toList).map unifyChar).filter (fun c => ! isStateSpace c)).map
    Char.toLower

/-- `DataProcessor._normalize_state`.  Mirrors the source exactly: the
guard returns `"نامشخص"` (unknown) for `"nan"` and whitespace-only input;
an informal keyword occurring in `s_lower` wins first, then a formal
keyword; otherwise the *stripped, ي/ك-unified input itself* is returned
(`return s if s else "نامشخص"` — `s` is never empty at that point, the
`if s` guard is kept anyway). -/
def normalize_state (state : String) : String :=
  if state = "nan" ∨ trimWs state.toList = [] then "نامشخص"
  else if informal_normalized.any (fun k => isSubstrOf k (stateLower state)) then
    "غیررسمی"
  else if formal_normalized.any (fun k => isSubstrOf k (stateLower state)) then
    "رسمی"
  else
    let u := (trimWs state.toList).map unifyChar
    if u = [] then "نامشخص" else String.mk u

example : normalize_state "رسمی" = "رسمی" := by decide
example : normalize_state "غیر رسمی" = "غیررسمی" := by decide
example : normalize_state "hello" = "hello" := by decide
example : normalize_state " nan " = "nan" := by decide
example : normalize_state "nan" = "نامشخص" := by decide
example : normalize_state "" = "نامشخص" := by decide
example : normalize_state "پیش\u200cفاکتور" = "غیررسمی" := by decide
example : normalize_text "  Aلی  ي " = "aلی ی" := by decide

/-- Length of a longest common subsequence of two character lists,
written with a fuel argument so that it is structurally recursive (and
hence computable by the kernel); the fuel is always sufficient when it is
at least the sum of the lengths. -/
def lcsLenF : Nat → List Char → List Char → Nat
  | 0, _, _ => 0
  | _ + 1, [], _ => 0
  | _ + 1, _ :: _, [] => 0
  | n + 1, a :: as, b :: bs =>
    if a = b then lcsLenF n as bs + 1
    else max (lcsLenF n (a :: as) bs) (lcsLenF n as (b :: bs))

/-- Length of a longest common subsequence of two character lists. -/
def lcsLen (a b : List Char) : Nat :=
  lcsLenF (a.length + b.length) a b

/-- Model of the external library call `rapidfuzz.fuzz.ratio`: the
normalized indel similarity, `100 * (1 - indel_distance / (|a| + |b|))`,
which equals `200 * lcs / (|a| + |b|)`; two empty strings score 100.
This models a third-party dependency, not repository code. -/
def fuzzRatio (a b : List Char) : ℚ :=
  if a.length + b.length = 0 then 100
  else (200 * lcsLen a b : ℚ) / (a.length + b.length : ℚ)

/-- First occurrences of a list, in order (pandas `Series.unique`). -/
def uniqList {α : Type} [DecidableEq α] : List α → List α
  | [] => []
  | x :: xs => x :: (uniqList xs).filter (fun y => y ≠ x)

/-- Lexicographic comparison of character lists by code point (Python
string `<`), used only inside the token-set-ratio model. -/
def lexLe : List Char → List Char → Bool
  | [], _ => true
  | _ :: _, [] => false
  | a :: as, b :: bs => if a = b then lexLe as bs else decide (a < b)

def insertLex (w : List Char) : List (List Char) → List (List Char)
  | [] => [w]
  | x :: xs => if lexLe w x then w :: x :: xs else x :: insertLex w xs

def sortLex : List (List Char) → List (List Char)
  | [] => []
  | w :: ws => insertLex w (sortLex ws)

def joinSpace : List (List Char) → List Char
  | [] => []
  | [w] => w
  | w :: ws => w ++ ' ' :: joinSpace ws

/-- Model of the external library call `rapidfuzz.fuzz.token_set_ratio`:
split both sides into token sets, and take the best indel ratio among the
sorted intersection and the two sorted unions (100 outright when one side's
tokens are a subset of the other's and the intersection is non-empty).
This models a third-party dependency, not repository code; no claim
depends on its exact values. -/
def token_set_ratio (a b : List Char) : ℚ :=
  let ta := sortLex (uniqList (splitWs a))
  let tb := sortLex (uniqList (splitWs b))
  let sect := ta.filter (fun w => w ∈ tb)
  let d1 := ta.filter (fun w => w ∉ tb)
  let d2 := tb.filter (fun w => w ∉ ta)
  if sect ≠ [] ∧ (d1 = [] ∨ d2 = []) then 100
  else
    let s0 := joinSpace sect
    let s1 := joinSpace (sect ++ d1)
    let s2 := joinSpace (sect ++ d2)
    max (max (fuzzRatio s0 s1) (fuzzRatio s0 s2)) (fuzzRatio s1 s2)

/-- The stopword set of `DataProcessor._extract_keywords`. -/
def lost_stopwords : List (List Char) :=
  (["شرکت", "موسسه", "گروه", "سازمان", "مجموعه",
    "مهندسی", "پیمانکاری", "ساختمانی", "عمرانی",
    "تجاری", "صنعتی", "خدماتی", "فنی", "تولیدی",
    "بازرگانی", "پروژه", "سهامی", "خاص", "عام",
    "محدود", "و", "در", "به", "از", "با"]).map String.toList

/-- `DataProcessor._extract_keywords`: normalize the name, split on
whitespace, drop stopwords and words of length at most 2. -/
def extract_keywords (name : String) : List (List Char) :=
  (splitWs (normalize_text name).toList).filter
    (fun w => w ∉ lost_stopwords ∧ 2 < w.length)

/-- The inner loop of `DataProcessor._calculate_keyword_match`: scan
`keywords2` for the best not-yet-used partner of `kw1`.  A literal equal
match returns 1.0 at once; otherwise the best fuzzy ratio that is at least
`threshold` and strictly improves `best * 100` is kept.  `best`/`bkw`
are the running `best_match` / `best_kw2` accumulators. -/
def findBest (kw1 : List Char) (threshold : ℚ) (used : List (List Char)) :
    List (List Char) → ℚ → Option (List Char) → ℚ × Option (List Char)
  | [], best, bkw => (best, bkw)
  | kw2 :: rest, best, bkw =>
    if kw2 ∈ used then findBest kw1 threshold used rest best bkw
    else if kw1 = kw2 then (1, some kw2)
    else
      let sim := fuzzRatio kw1 kw2
      if threshold ≤ sim ∧ best * 100 < sim then
        findBest kw1 threshold used rest (sim / 100) (some kw2)
      else findBest kw1 threshold used rest best bkw

/-- The outer loop of `_calculate_keyword_match`.  `used` is the
`used_keywords2` set (a set of strings: all copies of a consumed word
count as used).  The Python `if best_kw2:` test is string truthiness, so
a matched empty keyword is discarded exactly as in the source. -/
def calcKeywordMatchAux (threshold : ℚ) (kws2 : List (List Char)) :
    List (List Char) → List (List Char) → ℚ
  | [], _ => 0
  | kw1 :: rest, used =>
    match findBest kw1 threshold used kws2 0 none with
    | (best, some k) =>
      if k ≠ [] then best + calcKeywordMatchAux threshold kws2 rest (k :: used)
      else calcKeywordMatchAux threshold kws2 rest used
    | (_, none) => calcKeywordMatchAux threshold kws2 rest used

/-- `DataProcessor._calculate_keyword_match`. -/
def calculate_keyword_match (keywords1 keywords2 : List (List Char))
    (threshold : ℚ) : ℚ :=
  calcKeywordMatchAux threshold keywords2 keywords1 []

unseal Rat.mul Rat.inv Rat.add Rat.sub Rat.ofScientific in
example :
    calculate_keyword_match ["علی".toList] ["علی".toList] 85 = 1 := by decide

unseal Rat.mul Rat.inv Rat.add Rat.sub Rat.ofScientific in
example :
    calculate_keyword_match ["رضا".toList, "رضا".toList] ["رضا".toList] 85 = 1 := by
  decide

unseal Rat.mul Rat.inv Rat.add Rat.sub Rat.ofScientific in
example :
    calculate_keyword_match ["رضا".toList, "محمدی".toList]
      ["رضا".toList, "محمدی".toList] 85 = 2 := by decide

/-- One processed purchase record, restricted to the columns that the
lost-customer detector reads: `customer_name` (already stripped, non-empty,
not `"nan"` after `process_data`), and the `to_numeric`-coerced `year` and
`month` (`none` models NaN).  The contact/address/product columns are
carried through `find_lost_customers` unchanged and influence neither
membership, order nor priority, so they are omitted from the model. -/
structure Record where
  name : String
  year : Option Int
  month : Option Int
deriving DecidableEq, Repr

/-- The window test `(year >= lo) & (year <= hi)` — false on NaN, as in
pandas. -/
def inWindow (lo hi : Int) (r : Record) : Bool :=
  match r.year with
  | some y => lo ≤ y ∧ y ≤ hi
  | none => false

/-- The rows of `processed_data` whose year falls in the window. -/
def windowRecords (records : List Record) (lo hi : Int) : List Record :=
  records.filter (inWindow lo hi)

/-- Number of records of customer `n` in `recs` (the group size of the
pandas `groupby('customer_name')`). -/
def purchaseCountIn (recs : List Record) (n : String) : Nat :=
  (recs.filter (fun r => r.name = n)).length

/-- `group['year'].max()`, then `int(...)` with 0 for NaN (all-NaN group). -/
def lastYearOf (g : List Record) : Int :=
  match g.filterMap (fun r => r.year) with
  | [] => 0
  | y :: ys => ys.foldl max y

/-- `group['month'].dropna().iloc[-1]` (the last non-null month in group
order), with 0 when the group has no non-null month. -/
def lastMonthOf (g : List Record) : Int :=
  match (g.filterMap (fun r => r.month)).getLast? with
  | some m => m
  | none => 0

/-- One row of the lost-customer result (`نام_مشتری`, `آخرین_سال`,
`آخرین_ماه`, `تعداد_خرید`, `اولویت`); the pass-through contact columns are
omitted (see `Record`). -/
structure LostCandidate where
  name : String
  lastYear : Int
  lastMonth : Int
  totalPurchases : Nat
  priority : String
deriving DecidableEq, Repr

/-- The per-customer aggregate built from the active-window group, before
the priority column exists (`priority` is the placeholder `""`, the column
is added after sorting, as in the source). -/
def statOf (n : String) (g : List Record) : LostCandidate :=
  { name := n
    lastYear := lastYearOf g
    lastMonth := lastMonthOf g
    totalPurchases := g.length
    priority := "" }

/-- `DataProcessor._calculate_priority`. -/
def calculate_priority (purchases : Nat) (last_year : Int) : String :=
  if 10 ≤ purchases ∧ 1402 ≤ last_year then "🔴 بالا"
  else if 5 ≤ purchases ∧ 1401 ≤ last_year then "🟡 متوسط"
  else "🟢 پایین"

/-- Stable insertion of a candidate into a count-descending list
(`sort_values('تعداد_خرید', ascending=False)`). -/
def insertByCount (c : LostCandidate) : List LostCandidate → List LostCandidate
  | [] => [c]
  | x :: xs =>
    if x.totalPurchases < c.totalPurchases then c :: x :: xs
    else x :: insertByCount c xs

def sortByCountDesc : List LostCandidate → List LostCandidate
  | [] => []
  | c :: cs => insertByCount c (sortByCountDesc cs)

/-- `DataProcessor.find_lost_customers` on the processed record set.
Partition into the two windows, aggregate the active window per customer,
drop the groups below `min_purchase_count`, drop every customer whose
keyword set matches some distinct silent-window name with score at least
`min_keyword_match`, sort by purchase count descending, and finally add
the priority column.  (pandas `groupby` sorts the group keys; the group
order is irrelevant here because the result is re-sorted by purchase
count, so groups are formed in first-occurrence order.) -/
def find_lost_customers (records : List Record)
    (active_period_start active_period_end : Int)
    (silent_period_start silent_period_end : Int)
    (min_keyword_match : ℚ) (similarity_threshold : ℚ)
    (min_purchase_count : Nat) : List LostCandidate :=
  let active := windowRecords records active_period_start active_period_end
  let recent := windowRecords records silent_period_start silent_period_end
  let names := uniqList (active.map (fun r => r.name))
  let stats := names.map (fun n => statOf n (active.filter (fun r => r.name = n)))
  let surviving := stats.filter (fun s => min_purchase_count ≤ s.totalPurchases)
  let recent_names := uniqList (recent.map (fun r => r.name))
  let lost := surviving.filter (fun s =>
    ! recent_names.any (fun nn =>
        min_keyword_match ≤
          calculate_keyword_match (extract_keywords s.name)
            (extract_keywords nn) similarity_threshold))
  (sortByCountDesc lost).map
    (fun s => { s with priority := calculate_priority s.totalPurchases s.lastYear })

unseal Rat.mul Rat.inv Rat.add Rat.sub Rat.ofScientific in
example :
    find_lost_customers
      [⟨"علی", some 1395, none⟩, ⟨"علی", some 1403, none⟩]
      1393 1402 1403 1404 2 85 1 =
      [⟨"علی", 1395, 0, 1, "🟢 پایین"⟩] := by decide

unseal Rat.mul Rat.inv Rat.add Rat.sub Rat.ofScientific in
example :
    find_lost_customers
      [⟨"رضا محمدی", some 1395, some 2⟩, ⟨"رضا محمدی", some 1403, none⟩]
      1393 1402 1403 1404 2 85 1 = [] := by decide

/-- The `SearchMode` enum of the source (`EXACT`, `FUZZY`, `PARTIAL`,
`AUTO`; the third value is named `part` here because its Python spelling
is reserved in Lean). -/
inductive SearchMode where
  | exact
  | fuzzy
  | part
  | auto
deriving DecidableEq, Repr

/-- One value of the `customer_index` dictionary built by
`_build_customer_index` (the normalized name, its whitespace split, and
the aggregate payload copied into every `SearchResult`). -/
structure CustomerInfo where
  normalizedName : List Char
  keywords : List (List Char)
  totalPurchases : Nat
  formalPurchases : Nat
  informalPurchases : Nat
  yearsActive : List Int
  monthsActive : List Int
  mobileNumbers : List String
  phoneNumbers : List String
  addresses : List String
  products : List String
  totalProducts : Nat
deriving DecidableEq, Repr

/-- The `SearchResult` dataclass. -/
structure SearchResult where
  customer_name : String
  match_score : ℚ
  total_purchases : Nat
  formal_purchases : Nat
  informal_purchases : Nat
  years_active : List Int
  months_active : List Int
  mobile_numbers : List String
  phone_numbers : List String
  addresses : List String
  products : List String
  total_products : Nat
deriving DecidableEq, Repr

/-- Python's `round(x, 2)`: banker's rounding of `100 x` (round half to
even), divided by 100.  (The source rounds a binary double; every value a
claim touches is exactly representable, where all rounding conventions
agree.) -/
def roundHalfEven (q : ℚ) : Int :=
  let f := q.floor
  if q - f = 1 / 2 then (if f % 2 = 0 then f else f + 1)
  else if q - f < 1 / 2 then f else f + 1

def round2 (q : ℚ) : ℚ :=
  (roundHalfEven (q * 100) : ℚ) / 100

/-- The `PARTIAL` branch of `search_customer`: the fraction of query
keywords that occur inside some index keyword, times 100 (0 when no
keyword matches, avoiding the division). -/
def partScore (qkws : List (List Char)) (kws : List (List Char)) : ℚ :=
  let m := (qkws.filter (fun q => kws.any (fun k => isSubstrOf q k))).length
  if 0 < m then (m : ℚ) / (qkws.length : ℚ) * 100 else 0

/-- The inner `for keyword in info['keywords']` loop of the `AUTO` branch:
the first keyword containing `q_word` scores 1, otherwise the first
keyword with `fuzz.ratio > 85` scores 0.8; the loop breaks at the first
hit. -/
def autoWordScore (qw : List Char) : List (List Char) → ℚ
  | [] => 0
  | kw :: rest =>
    if isSubstrOf qw kw then 1
    else if 85 < fuzzRatio qw kw then 0.8
    else autoWordScore qw rest

/-- The `AUTO` branch of `search_customer`: 100 on exact normalized
equality, 95 on substring containment, else the keyword score scaled by
90, falling back to `token_set_ratio * 0.8` when no keyword contributes. -/
def autoScore (qn : List Char) (qkws : List (List Char))
    (nn : List Char) (kws : List (List Char)) : ℚ :=
  if nn = qn then 100
  else if isSubstrOf qn nn then 95
  else
    let m := qkws.foldl (fun acc qw => acc + autoWordScore qw kws) 0
    if 0 < m then m / (qkws.length : ℚ) * 90
    else token_set_ratio qn nn * 0.8

/-- The per-customer score of `search_customer`, by mode. -/
def modeScore (mode : SearchMode) (qn : List Char) (qkws : List (List Char))
    (info : CustomerInfo) : ℚ :=
  match mode with
  | .exact => if info.normalizedName = qn then 100 else 0
  | .part => partScore qkws info.keywords
  | .fuzzy => token_set_ratio qn info.normalizedName
  | .auto => autoScore qn qkws info.normalizedName info.keywords

/-- Building one `SearchResult` from an index entry (scores are rounded to
two decimals as in the source). -/
def mkResult (name : String) (score : ℚ) (info : CustomerInfo) : SearchResult :=
  { customer_name := name
    match_score := round2 score
    total_purchases := info.totalPurchases
    formal_purchases := info.formalPurchases
    informal_purchases := info.informalPurchases
    years_active := info.yearsActive
    months_active := info.monthsActive
    mobile_numbers := info.mobileNumbers
    phone_numbers := info.phoneNumbers
    addresses := info.addresses
    products := info.products
    total_products := info.totalProducts }

/-- Stable insertion into a score-descending list
(`results.sort(key=..., reverse=True)`, Python sort is stable). -/
def insertByScore (r : SearchResult) : List SearchResult → List SearchResult
  | [] => [r]
  | x :: xs =>
    if x.match_score < r.match_score then r :: x :: xs
    else x :: insertByScore r xs

def sortByScoreDesc : List SearchResult → List SearchResult
  | [] => []
  | r :: rs => insertByScore r (sortByScoreDesc rs)

/-- `DataProcessor.search_customer` over a given customer index (the
index is an association list in insertion order, as a Python dict).  An
all-whitespace query short-circuits to `[]`; otherwise every entry is
scored, entries reaching `min_score` produce a `SearchResult`, and the
results are sorted by score descending. -/
def search_customer (index : List (String × CustomerInfo)) (query : String)
    (mode : SearchMode) (min_score : ℚ) : List SearchResult :=
  if trimWs query.toList = [] then []
  else
    let qn := (normalize_text query).toList
    let qkws := splitWs qn
    sortByScoreDesc (index.filterMap (fun p =>
      let score := modeScore mode qn qkws p.2
      if min_score ≤ score then some (mkResult p.1 score p.2) else none))

/-- The processing state of a `DataProcessor`: `processed_data` (`none`
until `process_data` ran) and the `customer_index` cache (the empty dict
from `__init__` until the index is built).  Only the parts the claims
need are modelled. -/
structure ProcState where
  processed_data : Option (List Record)
  customer_index : List (String × CustomerInfo)

/-- The state right after `DataProcessor.__init__`: no processed data, an
empty customer index. -/
def initialState : ProcState :=
  { processed_data := none, customer_index := [] }

/-- `search_customer` as an operation on the processor state.  The source
method contains no raise and no readiness check, so the embedding always
returns normally (`Except.ok`). -/
def searchCustomerOp (st : ProcState) (query : String) (mode : SearchMode)
    (min_score : ℚ) : Except String (List SearchResult) :=
  Except.ok (search_customer st.customer_index query mode min_score)

/-- `find_lost_customers` as an operation on the processor state: the
source raises `Exception("ابتدا داده‌ها را پردازش کنید.")` when
`processed_data is None`. -/
def findLostOp (st : ProcState)
    (active_period_start active_period_end : Int)
    (silent_period_start silent_period_end : Int)
    (min_keyword_match : ℚ) (similarity_threshold : ℚ)
    (min_purchase_count : Nat) : Except String (List LostCandidate) :=
  match st.processed_data with
  | none => Except.error "ابتدا داده‌ها را پردازش کنید."
  | some records =>
    Except.ok (find_lost_customers records
      active_period_start active_period_end
      silent_period_start silent_period_end
      min_keyword_match similarity_threshold min_purchase_count)

unseal Rat.mul Rat.inv Rat.add Rat.sub Rat.ofScientific in
example :
    search_customer initialState.customer_index "احمد" SearchMode.auto 60 = [] := by
  decide

/-! ### Helper lemmas: membership in `uniqList`, substring basics, trim -/

theorem mem_uniqList {α : Type} [DecidableEq α] (a : α) :
    ∀ l : List α, a ∈ uniqList l ↔ a ∈ l := by
  intro l
  induction l with
  | nil => simp [uniqList]
  | cons x xs ih =>
    by_cases hax : a = x
    · subst hax; simp [uniqList]
    · simp only [uniqList, List.mem_cons, List.mem_filter, ih, decide_eq_true_eq]
      constructor
      · rintro (h | ⟨h, _⟩)
        · exact Or.inl h
        · exact Or.inr h
      · rintro (h | h)
        · exact Or.inl h
        · exact Or.inr ⟨h, hax⟩

theorem isSubstrOf_nil (k : List Char) (hk : k ≠ []) : isSubstrOf k [] = false := by
  cases k with
  | nil => exact absurd rfl hk
  | cons c cs => rfl

theorem trimTrail_cons (c : Char) (cs : List Char) :
    trimTrail (c :: cs) =
      if trimTrail cs = [] ∧ isWs c then [] else c :: trimTrail cs := rfl

theorem trimTrail_cases (c : Char) (cs : List Char) :
    trimTrail (c :: cs) = [] ∨ trimTrail (c :: cs) = c :: trimTrail cs := by
  rw [trimTrail_cons]
  by_cases h : trimTrail cs = [] ∧ isWs c
  · rw [if_pos h]; exact Or.inl rfl
  · rw [if_neg h]; exact Or.inr rfl

theorem dropWhile_isWs_cases (l : List Char) :
    l.dropWhile isWs = [] ∨
      ∃ c cs, l.dropWhile isWs = c :: cs ∧ isWs c = false := by
  induction l with
  | nil => exact Or.inl rfl
  | cons x xs ih =>
    by_cases hx : isWs x
    · simpa [List.dropWhile_cons, hx] using ih
    · exact Or.inr ⟨x, xs, by simp [List.dropWhile_cons, hx], by simpa using hx⟩

theorem trimTrail_idem : ∀ l : List Char, trimTrail (trimTrail l) = trimTrail l := by
  intro l
  induction l with
  | nil => rfl
  | cons c cs ih =>
    rw [trimTrail_cons]
    by_cases h : trimTrail cs = [] ∧ isWs c
    · rw [if_pos h]; rfl
    · rw [if_neg h, trimTrail_cons, ih, if_neg h]

theorem dropWhile_trimTrail_dropWhile (l : List Char) :
    (trimTrail (l.dropWhile isWs)).dropWhile isWs = trimTrail (l.dropWhile isWs) := by
  rcases dropWhile_isWs_cases l with h | ⟨c, cs, h, hc⟩
  · rw [h]; rfl
  · rw [h]
    rcases trimTrail_cases c cs with h2 | h2
    · rw [h2]; rfl
    · rw [h2, List.dropWhile_cons, hc]; simp

theorem trimWs_idem (l : List Char) : trimWs (trimWs l) = trimWs l := by
  unfold trimWs
  rw [dropWhile_trimTrail_dropWhile, trimTrail_idem]

theorem unifyChar_idem (c : Char) : unifyChar (unifyChar c) = unifyChar c := by
  unfold unifyChar
  split
  · decide
  · split
    · decide
    · simp_all

theorem map_unifyChar_idem (l : List Char) :
    (l.map unifyChar).map unifyChar = l.map unifyChar := by
  rw [List.map_map]
  exact List.map_congr_left (fun c _ => unifyChar_idem c)

theorem isWs_unifyChar (c : Char) : isWs (unifyChar c) = isWs c := by
  unfold unifyChar
  split
  · rename_i h; subst h; decide
  · split
    · rename_i h; subst h; decide
    · rfl

theorem trimTrail_map_unifyChar :
    ∀ l : List Char, trimTrail (l.map unifyChar) = (trimTrail l).map unifyChar := by
  intro l
  induction l with
  | nil => rfl
  | cons c cs ih =>
    rw [List.map_cons, trimTrail_cons, trimTrail_cons, ih, isWs_unifyChar]
    by_cases h : trimTrail cs = [] ∧ isWs c
    · rw [if_pos h, if_pos ⟨by rw [h.1]; rfl, h.2⟩]; rfl
    · have h2 : ¬((trimTrail cs).map unifyChar = [] ∧ isWs c) := by
        intro h3
        exact h ⟨List.map_eq_nil_iff.mp h3.1, h3.2⟩
      rw [if_neg h, if_neg h2, List.map_cons]

theorem dropWhile_isWs_map_unifyChar (l : List Char) :
    (l.map unifyChar).dropWhile isWs = (l.dropWhile isWs).map unifyChar := by
  rw [List.dropWhile_map]
  have h : (isWs ∘ unifyChar) = isWs := funext isWs_unifyChar
  rw [h]

theorem trimWs_map_unifyChar (l : List Char) :
    trimWs (l.map unifyChar) = (trimWs l).map unifyChar := by
  unfold trimWs
  rw [dropWhile_isWs_map_unifyChar, trimTrail_map_unifyChar]

/-! ### Bounds on the fuzzy ratio and the greedy keyword match -/

theorem lcsLenF_le_left : ∀ (n : Nat) (a b : List Char), lcsLenF n a b ≤ a.length := by
  intro n
  induction n with
  | zero => intro a b; exact Nat.zero_le _
  | succ n ih =>
    intro a b
    cases a with
    | nil => exact Nat.zero_le _
    | cons x as =>
      cases b with
      | nil => exact Nat.zero_le _
      | cons y bs =>
        show (if x = y then lcsLenF n as bs + 1
              else max (lcsLenF n (x :: as) bs) (lcsLenF n as (y :: bs))) ≤ _
        by_cases h : x = y
        · rw [if_pos h]
          exact Nat.succ_le_succ (ih as bs)
        · rw [if_neg h]
          apply max_le
          · exact ih (x :: as) bs
          · exact Nat.le_trans (ih as (y :: bs)) (Nat.le_succ _)

theorem lcsLenF_le_right : ∀ (n : Nat) (a b : List Char), lcsLenF n a b ≤ b.length := by
  intro n
  induction n with
  | zero => intro a b; exact Nat.zero_le _
  | succ n ih =>
    intro a b
    cases a with
    | nil => exact Nat.zero_le _
    | cons x as =>
      cases b with
      | nil => exact Nat.zero_le _
      | cons y bs =>
        show (if x = y then lcsLenF n as bs + 1
              else max (lcsLenF n (x :: as) bs) (lcsLenF n as (y :: bs))) ≤ _
        by_cases h : x = y
        · rw [if_pos h]
          exact Nat.succ_le_succ (ih as bs)
        · rw [if_neg h]
          apply max_le
          · exact Nat.le_trans (ih (x :: as) bs) (Nat.le_succ _)
          · exact ih as (y :: bs)

theorem fuzzRatio_le_100 (a b : List Char) : fuzzRatio a b ≤ 100 := by
  unfold fuzzRatio
  by_cases h : a.length + b.length = 0
  · rw [if_pos h]
  · rw [if_neg h]
    have hpos : (0 : ℚ) < (a.length + b.length : ℚ) := by
      have : 0 < a.length + b.length := Nat.pos_of_ne_zero h
      exact_mod_cast this
    rw [div_le_iff₀ hpos]
    have h1 : lcsLen a b ≤ a.length := lcsLenF_le_left _ a b
    have h2 : lcsLen a b ≤ b.length := lcsLenF_le_right _ a b
    have : (200 : ℚ) * lcsLen a b = 100 * lcsLen a b + 100 * lcsLen a b := by ring
    rw [this]
    have ha : (100 : ℚ) * lcsLen a b ≤ 100 * a.length := by
      have := (Nat.cast_le (α := ℚ)).mpr h1
      nlinarith
    have hb : (100 : ℚ) * lcsLen a b ≤ 100 * b.length := by
      have := (Nat.cast_le (α := ℚ)).mpr h2
      nlinarith
    calc (100 : ℚ) * lcsLen a b + 100 * lcsLen a b
        ≤ 100 * a.length + 100 * b.length := add_le_add ha hb
      _ = 100 * (a.length + b.length : ℚ) := by ring

theorem findBest_fst_le_one (kw1 : List Char) (t : ℚ) (used : List (List Char)) :
    ∀ (l : List (List Char)) (best : ℚ) (bkw : Option (List Char)),
      best ≤ 1 → (findBest kw1 t used l best bkw).1 ≤ 1 := by
  intro l
  induction l with
  | nil => intro best bkw h; exact h
  | cons kw2 rest ih =>
    intro best bkw h
    show (if kw2 ∈ used then findBest kw1 t used rest best bkw
          else if kw1 = kw2 then ((1 : ℚ), some kw2)
          else if t ≤ fuzzRatio kw1 kw2 ∧ best * 100 < fuzzRatio kw1 kw2 then
            findBest kw1 t used rest (fuzzRatio kw1 kw2 / 100) (some kw2)
          else findBest kw1 t used rest best bkw).1 ≤ 1
    by_cases h1 : kw2 ∈ used
    · rw [if_pos h1]; exact ih best bkw h
    · rw [if_neg h1]
      by_cases h2 : kw1 = kw2
      · rw [if_pos h2]
      · rw [if_neg h2]
        by_cases h3 : t ≤ fuzzRatio kw1 kw2 ∧ best * 100 < fuzzRatio kw1 kw2
        · rw [if_pos h3]
          apply ih
          rw [div_le_one (by norm_num : (0:ℚ) < 100)]
          exact fuzzRatio_le_100 kw1 kw2
        · rw [if_neg h3]; exact ih best bkw h

theorem findBest_snd_mem (kw1 : List Char) (t : ℚ) (used : List (List Char)) :
    ∀ (l : List (List Char)) (best : ℚ) (bkw : Option (List Char)) (b : ℚ)
      (k : List Char), findBest kw1 t used l best bkw = (b, some k) →
      (k ∈ l ∧ k ∉ used) ∨ bkw = some k := by
  intro l
  induction l with
  | nil =>
    intro best bkw b k h
    exact Or.inr (congrArg Prod.snd h)
  | cons kw2 rest ih =>
    intro best bkw b k h
    rw [show findBest kw1 t used (kw2 :: rest) best bkw =
          (if kw2 ∈ used then findBest kw1 t used rest best bkw
           else if kw1 = kw2 then ((1 : ℚ), some kw2)
           else if t ≤ fuzzRatio kw1 kw2 ∧ best * 100 < fuzzRatio kw1 kw2 then
             findBest kw1 t used rest (fuzzRatio kw1 kw2 / 100) (some kw2)
           else findBest kw1 t used rest best bkw) from rfl] at h
    by_cases h1 : kw2 ∈ used
    · rw [if_pos h1] at h
      rcases ih best bkw b k h with ⟨hm, hu⟩ | hb
      · exact Or.inl ⟨List.mem_cons_of_mem _ hm, hu⟩
      · exact Or.inr hb
    · rw [if_neg h1] at h
      by_cases h2 : kw1 = kw2
      · rw [if_pos h2] at h
        have : k = kw2 := by
          have := congrArg Prod.snd h
          simpa using this.symm
        subst this
        exact Or.inl ⟨List.mem_cons_self _ _, h1⟩
      · rw [if_neg h2] at h
        by_cases h3 : t ≤ fuzzRatio kw1 kw2 ∧ best * 100 < fuzzRatio kw1 kw2
        · rw [if_pos h3] at h
          rcases ih _ _ b k h with ⟨hm, hu⟩ | hb
          · exact Or.inl ⟨List.mem_cons_of_mem _ hm, hu⟩
          · have : k = kw2 := by simpa using hb.symm
            subst this
            exact Or.inl ⟨List.mem_cons_self _ _, h1⟩
        · rw [if_neg h3] at h
          rcases ih best bkw b k h with ⟨hm, hu⟩ | hb
          · exact Or.inl ⟨List.mem_cons_of_mem _ hm, hu⟩
          · exact Or.inr hb

theorem length_filter_ne_succ_le (k : List Char) :
    ∀ A : List (List Char), k ∈ A →
      (A.filter (fun x => x ≠ k)).length + 1 ≤ A.length := by
  intro A
  induction A with
  | nil => intro h; exact absurd h (List.not_mem_nil k)
  | cons a as ih =>
    intro h
    by_cases hak : a = k
    · subst hak
      rw [List.filter_cons_of_neg (by simp)]
      exact Nat.succ_le_succ (List.length_filter_le _ _)
    · rw [List.filter_cons_of_pos (by simpa using hak)]
      have hk : k ∈ as := by
        rcases List.mem_cons.mp h with h1 | h1
        · exact absurd h1.symm hak
        · exact h1
      simpa [Nat.succ_le_succ_iff] using ih hk

theorem filter_not_mem_cons (kws2 : List (List Char))
    (k : List Char) (used : List (List Char)) :
    kws2.filter (fun x => x ∉ k :: used) =
      (kws2.filter (fun x => x ∉ used)).filter (fun x => x ≠ k) := by
  rw [List.filter_filter]
  apply List.filter_congr
  intro x _
  by_cases h1 : x = k
  · simp [h1]
  · by_cases h2 : x ∈ used <;> simp [h1, h2]

theorem calcKeywordMatchAux_le (t : ℚ) (kws2 : List (List Char)) :
    ∀ (kws1 used : List (List Char)),
      calcKeywordMatchAux t kws2 kws1 used ≤
        ((kws2.filter (fun x => x ∉ used)).length : ℚ) := by
  intro kws1
  induction kws1 with
  | nil =>
    intro used
    show (0 : ℚ) ≤ _
    positivity
  | cons kw1 rest ih =>
    intro used
    show (match findBest kw1 t used kws2 0 none with
          | (best, some k) =>
            if k ≠ [] then best + calcKeywordMatchAux t kws2 rest (k :: used)
            else calcKeywordMatchAux t kws2 rest used
          | (_, none) => calcKeywordMatchAux t kws2 rest used) ≤ _
    rcases hfb : findBest kw1 t used kws2 0 none with ⟨b, bkw⟩
    cases bkw with
    | none => exact ih used
    | some k =>
      show (if k ≠ [] then b + calcKeywordMatchAux t kws2 rest (k :: used)
            else calcKeywordMatchAux t kws2 rest used) ≤ _
      by_cases hk : k ≠ []
      · rw [if_pos hk]
        have hmem : k ∈ kws2 ∧ k ∉ used := by
          rcases findBest_snd_mem kw1 t used kws2 0 none b k hfb with h | h
          · exact h
          · exact absurd h (by simp)
        have hb1 : b ≤ 1 := by
          have := findBest_fst_le_one kw1 t used kws2 0 none (by norm_num)
          rw [hfb] at this
          exact this
        have hkavail : k ∈ kws2.filter (fun x => x ∉ used) := by
          rw [List.mem_filter]
          exact ⟨hmem.1, by simpa using hmem.2⟩
        have hlen :
            ((kws2.filter (fun x => x ∉ k :: used)).length : ℚ) + 1 ≤
              ((kws2.filter (fun x => x ∉ used)).length : ℚ) := by
          rw [filter_not_mem_cons]
          exact_mod_cast length_filter_ne_succ_le k _ hkavail
        have := ih (k :: used)
        linarith
      · rw [if_neg hk]
        exact ih used

/-- The greedy keyword match never exceeds the number of silent-side
keywords: each silent keyword is consumed at most once. -/
theorem calculate_keyword_match_le (kws1 kws2 : List (List Char)) (t : ℚ) :
    calculate_keyword_match kws1 kws2 t ≤ (kws2.length : ℚ) := by
  have h := calcKeywordMatchAux_le t kws2 kws1 []
  have heq : kws2.filter (fun x => x ∉ ([] : List (List Char))) = kws2 := by
    apply List.filter_eq_self.mpr
    intro a _
    simp
  rw [heq] at h
  exact h

theorem findBest_of_mem (kw1 : List Char) (t : ℚ) (used : List (List Char))
    (hu : kw1 ∉ used) :
    ∀ (l : List (List Char)) (best : ℚ) (bkw : Option (List Char)),
      kw1 ∈ l → findBest kw1 t used l best bkw = (1, some kw1) := by
  intro l
  induction l with
  | nil => intro best bkw h; exact absurd h (List.not_mem_nil _)
  | cons kw2 rest ih =>
    intro best bkw h
    show (if kw2 ∈ used then findBest kw1 t used rest best bkw
          else if kw1 = kw2 then ((1 : ℚ), some kw2)
          else if t ≤ fuzzRatio kw1 kw2 ∧ best * 100 < fuzzRatio kw1 kw2 then
            findBest kw1 t used rest (fuzzRatio kw1 kw2 / 100) (some kw2)
          else findBest kw1 t used rest best bkw) = (1, some kw1)
    by_cases h1 : kw2 ∈ used
    · rw [if_pos h1]
      have hne : kw1 ≠ kw2 := fun he => hu (he ▸ h1)
      have : kw1 ∈ rest := by
        rcases List.mem_cons.mp h with h2 | h2
        · exact absurd h2 hne
        · exact h2
      exact ih best bkw this
    · rw [if_neg h1]
      by_cases h2 : kw1 = kw2
      · rw [if_pos h2, h2]
      · rw [if_neg h2]
        have hr : kw1 ∈ rest := by
          rcases List.mem_cons.mp h with h3 | h3
          · exact absurd h3 h2
          · exact h3
        by_cases h3 : t ≤ fuzzRatio kw1 kw2 ∧ best * 100 < fuzzRatio kw1 kw2
        · rw [if_pos h3]; exact ih _ _ hr
        · rw [if_neg h3]; exact ih best bkw hr

theorem calcKeywordMatchAux_self (t : ℚ) (kws2 : List (List Char)) :
    ∀ (l used : List (List Char)), l.Nodup → (∀ x ∈ l, x ∈ kws2) →
      (∀ x ∈ l, x ∉ used) → (∀ x ∈ l, x ≠ []) →
      calcKeywordMatchAux t kws2 l used = (l.length : ℚ) := by
  intro l
  induction l with
  | nil => intro used _ _ _ _; simp [calcKeywordMatchAux]
  | cons kw1 rest ih =>
    intro used hnd hsub hdisj hne
    have hbest :
        findBest kw1 t used kws2 0 none = (1, some kw1) :=
      findBest_of_mem kw1 t used (hdisj kw1 (List.mem_cons_self _ _)) kws2 0 none
        (hsub kw1 (List.mem_cons_self _ _))
    show (match findBest kw1 t used kws2 0 none with
          | (best, some k) =>
            if k ≠ [] then best + calcKeywordMatchAux t kws2 rest (k :: used)
            else calcKeywordMatchAux t kws2 rest used
          | (_, none) => calcKeywordMatchAux t kws2 rest used) = _
    rw [hbest]
    show (if kw1 ≠ [] then (1:ℚ) + calcKeywordMatchAux t kws2 rest (kw1 :: used)
          else calcKeywordMatchAux t kws2 rest used) = _
    rw [if_pos (hne kw1 (List.mem_cons_self _ _))]
    have hrest :
        calcKeywordMatchAux t kws2 rest (kw1 :: used) = (rest.length : ℚ) := by
      apply ih (kw1 :: used) (List.Nodup.of_cons hnd)
      · intro x hx; exact hsub x (List.mem_cons_of_mem _ hx)
      · intro x hx
        rw [List.mem_cons]
        push_neg
        refine ⟨?_, hdisj x (List.mem_cons_of_mem _ hx)⟩
        intro he
        subst he
        exact (List.nodup_cons.mp hnd).1 hx
      · intro x hx; exact hne x (List.mem_cons_of_mem _ hx)
    rw [hrest, List.length_cons]
    push_cast
    ring

/-- On two identical, duplicate-free keyword lists with no empty keyword,
the greedy match scores exactly the number of keywords (each keyword is
consumed by its own literal copy). -/
theorem calculate_keyword_match_self (l : List (List Char)) (t : ℚ)
    (hnd : l.Nodup) (hne : ∀ x ∈ l, x ≠ []) :
    calculate_keyword_match l l t = (l.length : ℚ) :=
  calcKeywordMatchAux_self t l l [] hnd (fun _ hx => hx) (fun _ _ => by simp)
    hne

/-! ### Sorting lemmas for the two insertion sorts -/

theorem mem_insertByCount (c x : LostCandidate) :
    ∀ l, x ∈ insertByCount c l ↔ x = c ∨ x ∈ l := by
  intro l
  induction l with
  | nil => simp [insertByCount]
  | cons a as ih =>
    show x ∈ (if a.totalPurchases < c.totalPurchases then c :: a :: as
              else a :: insertByCount c as) ↔ _
    by_cases h : a.totalPurchases < c.totalPurchases
    · rw [if_pos h]; simp [List.mem_cons]
    · rw [if_neg h]; simp [List.mem_cons, ih]; tauto

theorem mem_sortByCountDesc (x : LostCandidate) :
    ∀ l, x ∈ sortByCountDesc l ↔ x ∈ l := by
  intro l
  induction l with
  | nil => simp [sortByCountDesc]
  | cons c cs ih =>
    show x ∈ insertByCount c (sortByCountDesc cs) ↔ _
    rw [mem_insertByCount, ih]
    simp [List.mem_cons]

theorem pairwise_insertByCount (c : LostCandidate) :
    ∀ l, l.Pairwise (fun a b => b.totalPurchases ≤ a.totalPurchases) →
      (insertByCount c l).Pairwise
        (fun a b => b.totalPurchases ≤ a.totalPurchases) := by
  intro l
  induction l with
  | nil => intro _; simp [insertByCount]
  | cons a as ih =>
    intro hp
    show (if a.totalPurchases < c.totalPurchases then c :: a :: as
          else a :: insertByCount c as).Pairwise _
    rcases List.pairwise_cons.mp hp with ⟨ha, has⟩
    by_cases h : a.totalPurchases < c.totalPurchases
    · rw [if_pos h]
      apply List.pairwise_cons.mpr
      constructor
      · intro b hb
        rcases List.mem_cons.mp hb with hb | hb
        · subst hb; exact Nat.le_of_lt h
        · exact Nat.le_trans (ha b hb) (Nat.le_of_lt h)
      · exact hp
    · rw [if_neg h]
      apply List.pairwise_cons.mpr
      constructor
      · intro b hb
        rcases (mem_insertByCount c b as).mp hb with hb | hb
        · subst hb; exact Nat.le_of_not_lt h
        · exact ha b hb
      · exact ih has

theorem pairwise_sortByCountDesc :
    ∀ l, (sortByCountDesc l).Pairwise
      (fun a b => b.totalPurchases ≤ a.totalPurchases) := by
  intro l
  induction l with
  | nil => simp [sortByCountDesc]
  | cons c cs ih => exact pairwise_insertByCount c _ ih

theorem mem_insertByScore (r x : SearchResult) :
    ∀ l, x ∈ insertByScore r l ↔ x = r ∨ x ∈ l := by
  intro l
  induction l with
  | nil => simp [insertByScore]
  | cons a as ih =>
    show x ∈ (if a.match_score < r.match_score then r :: a :: as
              else a :: insertByScore r as) ↔ _
    by_cases h : a.match_score < r.match_score
    · rw [if_pos h]; simp [List.mem_cons]
    · rw [if_neg h]; simp [List.mem_cons, ih]; tauto

theorem mem_sortByScoreDesc (x : SearchResult) :
    ∀ l, x ∈ sortByScoreDesc l ↔ x ∈ l := by
  intro l
  induction l with
  | nil => simp [sortByScoreDesc]
  | cons r rs ih =>
    show x ∈ insertByScore r (sortByScoreDesc rs) ↔ _
    rw [mem_insertByScore, ih]
    simp [List.mem_cons]

theorem length_insertByScore (r : SearchResult) :
    ∀ l, (insertByScore r l).length = l.length + 1 := by
  intro l
  induction l with
  | nil => rfl
  | cons a as ih =>
    show (if a.match_score < r.match_score then r :: a :: as
          else a :: insertByScore r as).length = _
    by_cases h : a.match_score < r.match_score
    · rw [if_pos h]; rfl
    · rw [if_neg h]
      simp [List.length_cons, ih]

theorem length_sortByScoreDesc :
    ∀ l, (sortByScoreDesc l).length = l.length := by
  intro l
  induction l with
  | nil => rfl
  | cons r rs ih =>
    show (insertByScore r (sortByScoreDesc rs)).length = _
    rw [length_insertByScore, ih, List.length_cons]

/-! ### Facts about `extract_keywords` -/

theorem extract_keywords_ne_nil (n : String) :
    ∀ w ∈ extract_keywords n, w ≠ [] := by
  intro w hw
  unfold extract_keywords at hw
  rcases List.mem_filter.mp hw with ⟨_, hcond⟩
  intro he
  subst he
  simp at hcond

theorem extract_keywords_congr {a b : String}
    (h : normalize_text a = normalize_text b) :
    extract_keywords a = extract_keywords b := by
  unfold extract_keywords
  rw [h]

/-! ### Claim theorems -/

unseal Rat.mul Rat.inv Rat.add Rat.sub Rat.ofScientific in
/-- C1 (counterexample): the claim is false as stated.  The customer
`"علی"` occurs under the identical normalized name in the active window
(year 1395) and the silent window (year 1403) and has active purchase
count 1 ≥ `minPurchaseCount` = 1, yet `find_lost_customers` (with the
default `min_keyword_match` = 2) still reports it lost, because its
single-keyword name can never reach a keyword-match score of 2. -/
theorem C1_counterexample :
    "علی" ∈ (find_lost_customers
      [⟨"علی", some 1395, none⟩, ⟨"علی", some 1403, none⟩]
      1393 1402 1403 1404 2 85 1).map (fun c => c.name) := by decide

/-- C1 (amended): a customer that occurs with the identical normalized
name in both the active and the silent window, with active purchase count
at least `minPurchaseCount`, is *not* reported lost — provided its
extracted keyword list is duplicate-free and has at least
`minKeywordMatch` entries (the amendment the counterexample forces: with
fewer keywords than `minKeywordMatch` the identical name cannot reach the
required score and the customer is reported lost anyway). -/
theorem C1_find_lost_excludes_present (records : List Record)
    (aS aE sS sE : Int) (minKw t : ℚ) (minP : Nat) (nc ns : String)
    (hnorm : normalize_text ns = normalize_text nc)
    (hsil : ∃ r ∈ records, r.name = ns ∧ inWindow sS sE r = true)
    (_hact : ∃ r ∈ records, r.name = nc ∧ inWindow aS aE r = true)
    (_hcnt : minP ≤ purchaseCountIn (windowRecords records aS aE) nc)
    (hnd : (extract_keywords nc).Nodup)
    (hlen : minKw ≤ ((extract_keywords nc).length : ℚ)) :
    nc ∉ (find_lost_customers records aS aE sS sE minKw t minP).map
      (fun c => c.name) := by
  intro hmem
  simp only [find_lost_customers] at hmem
  rw [List.mem_map] at hmem
  obtain ⟨cand, hcand, hname⟩ := hmem
  rw [List.mem_map] at hcand
  obtain ⟨s, hs, rfl⟩ := hcand
  rw [mem_sortByCountDesc, List.mem_filter] at hs
  obtain ⟨_, hs_pred⟩ := hs
  rw [Bool.not_eq_true', List.any_eq_false] at hs_pred
  have hsname : s.name = nc := hname
  obtain ⟨r, hr, hrname, hrwin⟩ := hsil
  have hns_mem :
      ns ∈ uniqList ((windowRecords records sS sE).map (fun r => r.name)) := by
    rw [mem_uniqList, List.mem_map]
    exact ⟨r, List.mem_filter.mpr ⟨hr, hrwin⟩, hrname⟩
  have hscore :
      minKw ≤ calculate_keyword_match (extract_keywords s.name)
        (extract_keywords ns) t := by
    rw [hsname, extract_keywords_congr hnorm,
      calculate_keyword_match_self _ t hnd (extract_keywords_ne_nil nc)]
    exact hlen
  exact hs_pred ns hns_mem (decide_eq_true hscore)

unseal Rat.mul Rat.inv Rat.add Rat.sub Rat.ofScientific in
/-- C1 (witness): the amended theorem applies to the two-keyword customer
`"رضا محمدی"` present in both windows; it is indeed excluded from the
lost list. -/
theorem C1_find_lost_excludes_present_witness :
    normalize_text "رضا محمدی" = normalize_text "رضا محمدی" ∧
    (∃ r ∈ [(⟨"رضا محمدی", some 1395, some 2⟩ : Record),
            ⟨"رضا محمدی", some 1403, none⟩],
        r.name = "رضا محمدی" ∧ inWindow 1403 1404 r = true) ∧
    (∃ r ∈ [(⟨"رضا محمدی", some 1395, some 2⟩ : Record),
            ⟨"رضا محمدی", some 1403, none⟩],
        r.name = "رضا محمدی" ∧ inWindow 1393 1402 r = true) ∧
    1 ≤ purchaseCountIn (windowRecords
      [(⟨"رضا محمدی", some 1395, some 2⟩ : Record),
       ⟨"رضا محمدی", some 1403, none⟩] 1393 1402) "رضا محمدی" ∧
    (extract_keywords "رضا محمدی").Nodup ∧
    (2 : ℚ) ≤ ((extract_keywords "رضا محمدی").length : ℚ) ∧
    "رضا محمدی" ∉ (find_lost_customers
      [(⟨"رضا محمدی", some 1395, some 2⟩ : Record),
       ⟨"رضا محمدی", some 1403, none⟩]
      1393 1402 1403 1404 2 85 1).map (fun c => c.name) :=
  ⟨rfl, by decide, by decide, by decide, by decide, by decide,
    C1_find_lost_excludes_present _ 1393 1402 1403 1404 2 85 1
      "رضا محمدی" "رضا محمدی" rfl (by decide) (by decide) (by decide)
      (by decide) (by decide)⟩

/-- C4 (confirmed): a customer all of whose records lie in the active
window, with active purchase count at least `minPurchaseCount`, such that
every distinct silent-window name scores below `minKeywordMatch` against
its keywords, appears in the lost-customer result; and the result is
sorted by purchase count descending. -/
theorem C4_find_lost_includes_lost (records : List Record)
    (aS aE sS sE : Int) (minKw t : ℚ) (minP : Nat) (nc : String)
    (hall : ∀ r ∈ records, r.name = nc → inWindow aS aE r = true)
    (hex : ∃ r ∈ records, r.name = nc)
    (hcnt : minP ≤ purchaseCountIn (windowRecords records aS aE) nc)
    (hsil : ∀ ns, (∃ r ∈ records, r.name = ns ∧ inWindow sS sE r = true) →
      calculate_keyword_match (extract_keywords nc) (extract_keywords ns) t
        < minKw) :
    nc ∈ (find_lost_customers records aS aE sS sE minKw t minP).map
        (fun c => c.name) ∧
      (find_lost_customers records aS aE sS sE minKw t minP).Pairwise
        (fun a b => b.totalPurchases ≤ a.totalPurchases) := by
  constructor
  · simp only [find_lost_customers]
    set active := windowRecords records aS aE with hactive
    set s := statOf nc (active.filter (fun r => r.name = nc)) with hsdef
    have hnames :
        nc ∈ uniqList (active.map (fun r => r.name)) := by
      obtain ⟨r, hr, hrname⟩ := hex
      rw [mem_uniqList, List.mem_map]
      exact ⟨r, List.mem_filter.mpr ⟨hr, hall r hr hrname⟩, hrname⟩
    have hstats :
        s ∈ (uniqList (active.map (fun r => r.name))).map
          (fun n => statOf n (active.filter (fun r => r.name = n))) :=
      List.mem_map.mpr ⟨nc, hnames, rfl⟩
    have hsurv :
        s ∈ ((uniqList (active.map (fun r => r.name))).map
          (fun n => statOf n (active.filter (fun r => r.name = n)))).filter
            (fun s => minP ≤ s.totalPurchases) := by
      rw [List.mem_filter]
      exact ⟨hstats, decide_eq_true hcnt⟩
    have hlost :
        (! (uniqList ((windowRecords records sS sE).map (fun r => r.name))).any
            (fun nn => minKw ≤ calculate_keyword_match
              (extract_keywords s.name) (extract_keywords nn) t)) = true := by
      rw [Bool.not_eq_true', List.any_eq_false]
      intro nn hnn
      rw [mem_uniqList, List.mem_map] at hnn
      obtain ⟨r, hr, hrname⟩ := hnn
      have hr2 : r ∈ records ∧ inWindow sS sE r = true := List.mem_filter.mp hr
      have hns : ∃ r ∈ records, r.name = nn ∧ inWindow sS sE r = true :=
        ⟨r, hr2.1, hrname, hr2.2⟩
      have hlt := hsil nn hns
      have hsname : s.name = nc := rfl
      rw [hsname]
      simp only [decide_eq_true_eq]
      exact not_le_of_lt hlt
    rw [List.mem_map]
    refine ⟨{ s with priority :=
      calculate_priority s.totalPurchases s.lastYear }, ?_, rfl⟩
    rw [List.mem_map]
    refine ⟨s, ?_, rfl⟩
    rw [mem_sortByCountDesc, List.mem_filter]
    exact ⟨hsurv, hlost⟩
  · simp only [find_lost_customers]
    apply List.Pairwise.map
    · intro a b hab
      exact hab
    · exact pairwise_sortByCountDesc _

unseal Rat.mul Rat.inv Rat.add Rat.sub Rat.ofScientific in
/-- C4 (witness): a customer with a single 1395 record, silent window
empty; it appears in the (sorted, single-row) result. -/
theorem C4_find_lost_includes_lost_witness :
    (∀ r ∈ [(⟨"محمد رضایی", some 1395, some 2⟩ : Record)],
        r.name = "محمد رضایی" → inWindow 1393 1402 r = true) ∧
    (∃ r ∈ [(⟨"محمد رضایی", some 1395, some 2⟩ : Record)],
        r.name = "محمد رضایی") ∧
    1 ≤ purchaseCountIn (windowRecords
      [(⟨"محمد رضایی", some 1395, some 2⟩ : Record)] 1393 1402)
      "محمد رضایی" ∧
    (∀ ns, (∃ r ∈ [(⟨"محمد رضایی", some 1395, some 2⟩ : Record)],
        r.name = ns ∧ inWindow 1403 1404 r = true) →
      calculate_keyword_match (extract_keywords "محمد رضایی")
        (extract_keywords ns) 85 < 2) ∧
    ("محمد رضایی" ∈ (find_lost_customers
        [(⟨"محمد رضایی", some 1395, some 2⟩ : Record)]
        1393 1402 1403 1404 2 85 1).map (fun c => c.name) ∧
      (find_lost_customers
        [(⟨"محمد رضایی", some 1395, some 2⟩ : Record)]
        1393 1402 1403 1404 2 85 1).Pairwise
          (fun a b => b.totalPurchases ≤ a.totalPurchases)) := by
  have hsil : ∀ ns, (∃ r ∈ [(⟨"محمد رضایی", some 1395, some 2⟩ : Record)],
      r.name = ns ∧ inWindow 1403 1404 r = true) →
      calculate_keyword_match (extract_keywords "محمد رضایی")
        (extract_keywords ns) 85 < 2 := by
    rintro ns ⟨r, hr, _, hwin⟩
    rcases List.mem_singleton.mp hr with rfl
    simp [inWindow] at hwin
  exact ⟨by decide, by decide, by decide, hsil,
    C4_find_lost_includes_lost _ 1393 1402 1403 1404 2 85 1 "محمد رضایی"
      (by decide) (by decide) (by decide) hsil⟩

/-- C5 (confirmed): in the greedy keyword pairing of
`_calculate_keyword_match`, each silent keyword is consumed by at most one
active keyword, so the total score never exceeds the number of silent
keywords; in particular, against a single silent keyword the score is at
most 1 no matter how many active keywords could match it. -/
theorem C5_keyword_match_no_double_count :
    (∀ (kws1 kws2 : List (List Char)) (t : ℚ),
      calculate_keyword_match kws1 kws2 t ≤ (kws2.length : ℚ)) ∧
    (∀ (kws1 : List (List Char)) (k : List Char) (t : ℚ),
      calculate_keyword_match kws1 [k] t ≤ 1) := by
  constructor
  · exact fun kws1 kws2 t => calculate_keyword_match_le kws1 kws2 t
  · intro kws1 k t
    have h := calculate_keyword_match_le kws1 [k] t
    simpa using h

/-- C6 (confirmed): the priority tier is `"🔴 بالا"` (high) exactly when
purchase count ≥ 10 and last year ≥ 1402, else `"🟡 متوسط"` (medium)
exactly when count ≥ 5 and last year ≥ 1401, else `"🟢 پایین"` (low);
every candidate emitted by `find_lost_customers` carries the priority
computed by `calculate_priority` from its own count and last year; and
the three concrete scenarios of the spec hold. -/
theorem C6_priority_tiers :
    (∀ (c : Nat) (y : Int),
      (calculate_priority c y = "🔴 بالا" ↔ 10 ≤ c ∧ 1402 ≤ y) ∧
      (calculate_priority c y = "🟡 متوسط" ↔
        ¬(10 ≤ c ∧ 1402 ≤ y) ∧ (5 ≤ c ∧ 1401 ≤ y)) ∧
      (calculate_priority c y = "🟢 پایین" ↔
        ¬(10 ≤ c ∧ 1402 ≤ y) ∧ ¬(5 ≤ c ∧ 1401 ≤ y))) ∧
    (∀ (records : List Record) (aS aE sS sE : Int) (minKw t : ℚ)
      (minP : Nat) (cand : LostCandidate),
      cand ∈ find_lost_customers records aS aE sS sE minKw t minP →
      cand.priority = calculate_priority cand.totalPurchases cand.lastYear) ∧
    calculate_priority 12 1402 = "🔴 بالا" ∧
    calculate_priority 6 1401 = "🟡 متوسط" ∧
    calculate_priority 2 1395 = "🟢 پایین" := by
  refine ⟨?_, ?_, by decide, by decide, by decide⟩
  · intro c y
    by_cases h1 : 10 ≤ c ∧ 1402 ≤ y
    · refine ⟨?_, ?_, ?_⟩ <;> simp [calculate_priority, h1]
    · by_cases h2 : 5 ≤ c ∧ 1401 ≤ y
      · refine ⟨?_, ?_, ?_⟩ <;> simp [calculate_priority, h1, h2]
      · refine ⟨?_, ?_, ?_⟩ <;> simp [calculate_priority, h1, h2]
  · intro records aS aE sS sE minKw t minP cand hmem
    simp only [find_lost_customers] at hmem
    rw [List.mem_map] at hmem
    obtain ⟨s, _, rfl⟩ := hmem
    rfl

unseal Rat.mul Rat.inv Rat.add Rat.sub Rat.ofScientific in
/-- C6 (witness): the single candidate produced by a one-record data set
carries exactly the priority `calculate_priority` computes for it. -/
theorem C6_priority_tiers_witness :
    ((⟨"علی", 1395, 0, 1, "🟢 پایین"⟩ : LostCandidate) ∈
      find_lost_customers [⟨"علی", some 1395, none⟩]
        1393 1402 1403 1404 2 85 1) ∧
    (⟨"علی", 1395, 0, 1, "🟢 پایین"⟩ : LostCandidate).priority =
      calculate_priority 1 1395 :=
  ⟨by decide,
    C6_priority_tiers.2.1 [⟨"علی", some 1395, none⟩] 1393 1402 1403 1404
      2 85 1 ⟨"علی", 1395, 0, 1, "🟢 پایین"⟩ (by decide)⟩

/-! ### Branch lemmas for `normalize_state` -/

theorem normalize_state_unknown_case (s : String)
    (hg : s = "nan" ∨ trimWs s.toList = []) :
    normalize_state s = "نامشخص" := by
  unfold normalize_state
  rw [if_pos hg]

theorem normalize_state_informal_case (s : String)
    (hg : ¬(s = "nan" ∨ trimWs s.toList = []))
    (hi : informal_normalized.any (fun k => isSubstrOf k (stateLower s)) = true) :
    normalize_state s = "غیررسمی" := by
  unfold normalize_state
  rw [if_neg hg, if_pos hi]

theorem normalize_state_formal_case (s : String)
    (hg : ¬(s = "nan" ∨ trimWs s.toList = []))
    (hi : informal_normalized.any (fun k => isSubstrOf k (stateLower s)) = false)
    (hf : formal_normalized.any (fun k => isSubstrOf k (stateLower s)) = true) :
    normalize_state s = "رسمی" := by
  unfold normalize_state
  rw [if_neg hg, if_neg (by simp [hi]), if_pos hf]

theorem normalize_state_fallthrough_case (s : String)
    (hg : ¬(s = "nan" ∨ trimWs s.toList = []))
    (hi : informal_normalized.any (fun k => isSubstrOf k (stateLower s)) = false)
    (hf : formal_normalized.any (fun k => isSubstrOf k (stateLower s)) = false) :
    normalize_state s = String.mk ((trimWs s.toList).map unifyChar) := by
  unfold normalize_state
  rw [if_neg hg, if_neg (by simp [hi]), if_neg (by simp [hf])]
  push_neg at hg
  have hu : (trimWs s.toList).map unifyChar ≠ [] := by
    intro h
    exact hg.2 (List.map_eq_nil_iff.mp h)
  show (if (trimWs s.toList).map unifyChar = [] then "نامشخص"
        else String.mk ((trimWs s.toList).map unifyChar)) = _
  rw [if_neg hu]

theorem trimWs_of_normalized (s : String) :
    trimWs ((trimWs s.toList).map unifyChar) = (trimWs s.toList).map unifyChar := by
  rw [trimWs_map_unifyChar, trimWs_idem]

theorem stateLower_of_normalized (s : String) :
    stateLower (String.mk ((trimWs s.toList).map unifyChar)) = stateLower s := by
  unfold stateLower
  have h1 : (String.mk ((trimWs s.toList).map unifyChar)).toList
      = (trimWs s.toList).map unifyChar := rfl
  rw [h1, trimWs_of_normalized, map_unifyChar_idem]

/-- C2 (counterexample): the claim is false as stated.  The input
`"hello"` contains no formal keyword and no informal pattern, yet
`_normalize_state` returns `"hello"` itself — not the canonical unknown
category — so the outputs are not confined to the three canonical
categories (`return s if s else "نامشخص"` returns the stripped input). -/
theorem C2_counterexample :
    normalize_state "hello" = "hello" ∧ "hello" ≠ "نامشخص" ∧
      "hello" ≠ "رسمی" ∧ "hello" ≠ "غیررسمی" := by decide

/-- C2 (amended): for an input containing (after unification, space
stripping and lower-casing) neither an informal nor a formal keyword,
`_normalize_state` returns the unknown category `"نامشخص"` when the input
is `"nan"` or whitespace-only, and otherwise returns the stripped,
ي/ك-unified input itself (which need not be a canonical category). -/
theorem C2_normalize_state_no_keyword (s : String)
    (hinf : ∀ k ∈ informal_normalized, isSubstrOf k (stateLower s) = false)
    (hfor : ∀ k ∈ formal_normalized, isSubstrOf k (stateLower s) = false) :
    normalize_state s =
      if s = "nan" ∨ trimWs s.toList = [] then "نامشخص"
      else String.mk ((trimWs s.toList).map unifyChar) := by
  by_cases hg : s = "nan" ∨ trimWs s.toList = []
  · rw [if_pos hg]
    exact normalize_state_unknown_case s hg
  · rw [if_neg hg]
    have hi : informal_normalized.any
        (fun k => isSubstrOf k (stateLower s)) = false :=
      List.any_eq_false.mpr (fun k hk => by simp [hinf k hk])
    have hf : formal_normalized.any
        (fun k => isSubstrOf k (stateLower s)) = false :=
      List.any_eq_false.mpr (fun k hk => by simp [hfor k hk])
    exact normalize_state_fallthrough_case s hg hi hf

/-- C2 (witness): the amended theorem applied to `"hello"`. -/
theorem C2_normalize_state_no_keyword_witness :
    (∀ k ∈ informal_normalized, isSubstrOf k (stateLower "hello") = false) ∧
    (∀ k ∈ formal_normalized, isSubstrOf k (stateLower "hello") = false) ∧
    normalize_state "hello" =
      (if "hello" = "nan" ∨ trimWs "hello".toList = [] then "نامشخص"
       else String.mk ((trimWs "hello".toList).map unifyChar)) :=
  ⟨by decide, by decide,
    C2_normalize_state_no_keyword "hello" (by decide) (by decide)⟩

/-- C8 (confirmed): when both an informal pattern and a formal keyword
occur literally in the unified, space-stripped, lower-cased input, the
informal keyword loop runs first, so `_normalize_state` returns the
informal category. -/
theorem C8_informal_precedence (s : String)
    (hinf : ∃ k ∈ informal_normalized, isSubstrOf k (stateLower s) = true)
    (hfor : ∃ k ∈ formal_normalized, isSubstrOf k (stateLower s) = true) :
    normalize_state s = "غیررسمی" := by
  have hg : ¬(s = "nan" ∨ trimWs s.toList = []) := by
    rintro (h | h)
    · subst h
      obtain ⟨k, hk, hsub⟩ := hinf
      have hfalse : ∀ k ∈ informal_normalized,
          isSubstrOf k (stateLower "nan") = false := by decide
      rw [hfalse k hk] at hsub
      exact Bool.false_ne_true hsub
    · obtain ⟨k, hk, hsub⟩ := hinf
      have hsl : stateLower s = [] := by
        unfold stateLower
        rw [h]
        rfl
      have hkne : k ≠ [] := by
        have hall : ∀ k ∈ informal_normalized, k ≠ [] := by decide
        exact hall k hk
      rw [hsl, isSubstrOf_nil k hkne] at hsub
      exact Bool.false_ne_true hsub
  exact normalize_state_informal_case s hg (List.any_eq_true.mpr hinf)

/-- C8 (witness): the input `"غیر رسمی (فاکتور)"` contains the informal
compound and the formal keyword `فاکتور`; it normalizes to informal. -/
theorem C8_informal_precedence_witness :
    (∃ k ∈ informal_normalized,
      isSubstrOf k (stateLower "غیر رسمی (فاکتور)") = true) ∧
    (∃ k ∈ formal_normalized,
      isSubstrOf k (stateLower "غیر رسمی (فاکتور)") = true) ∧
    normalize_state "غیر رسمی (فاکتور)" = "غیررسمی" :=
  ⟨by decide, by decide,
    C8_informal_precedence "غیر رسمی (فاکتور)" (by decide) (by decide)⟩

/-- C9 (counterexample): the claim is false as stated: `normalizeStatus`
is not idempotent on every input.  The input `" nan "` is not the literal
`"nan"`, so it falls through and is returned as the stripped string
`"nan"`; applying `normalizeStatus` again turns that into `"نامشخص"`. -/
theorem C9_counterexample :
    normalize_state (normalize_state " nan ") ≠ normalize_state " nan " := by
  decide

/-- C9 (amended): `normalizeStatus` is idempotent on every input whose
result is not the literal string `"nan"` (the only way to break
idempotence: an input that is not `"nan"` but strips to it); in
particular each canonical output `{رسمی, غیررسمی, نامشخص}` maps to
itself. -/
theorem C9_normalize_state_idem :
    (∀ s : String, normalize_state s ≠ "nan" →
      normalize_state (normalize_state s) = normalize_state s) ∧
    normalize_state "رسمی" = "رسمی" ∧
    normalize_state "غیررسمی" = "غیررسمی" ∧
    normalize_state "نامشخص" = "نامشخص" := by
  refine ⟨?_, by decide, by decide, by decide⟩
  intro s h
  by_cases hg : s = "nan" ∨ trimWs s.toList = []
  · rw [normalize_state_unknown_case s hg]
    decide
  · by_cases hi : informal_normalized.any
        (fun k => isSubstrOf k (stateLower s)) = true
    · rw [normalize_state_informal_case s hg hi]
      decide
    · rw [Bool.not_eq_true] at hi
      by_cases hf : formal_normalized.any
          (fun k => isSubstrOf k (stateLower s)) = true
      · rw [normalize_state_formal_case s hg hi hf]
        decide
      · rw [Bool.not_eq_true] at hf
        have hval := normalize_state_fallthrough_case s hg hi hf
        rw [hval] at h ⊢
        push_neg at hg
        have hune : (trimWs s.toList).map unifyChar ≠ [] := by
          intro he
          exact hg.2 (List.map_eq_nil_iff.mp he)
        have htoList :
            (String.mk ((trimWs s.toList).map unifyChar)).toList
              = (trimWs s.toList).map unifyChar := rfl
        have hg2 : ¬(String.mk ((trimWs s.toList).map unifyChar) = "nan" ∨
            trimWs (String.mk ((trimWs s.toList).map unifyChar)).toList = []) := by
          rintro (h2 | h2)
          · exact h h2
          · rw [htoList, trimWs_of_normalized] at h2
            exact hune h2
        have hi2 : informal_normalized.any (fun k => isSubstrOf k
            (stateLower (String.mk ((trimWs s.toList).map unifyChar)))) = false := by
          rw [stateLower_of_normalized]
          exact hi
        have hf2 : formal_normalized.any (fun k => isSubstrOf k
            (stateLower (String.mk ((trimWs s.toList).map unifyChar)))) = false := by
          rw [stateLower_of_normalized]
          exact hf
        rw [normalize_state_fallthrough_case _ hg2 hi2 hf2, htoList,
          trimWs_of_normalized, map_unifyChar_idem]

/-- C9 (witness): the amended idempotence applied to `"سلام"` (a
fallthrough input whose result is not `"nan"`). -/
theorem C9_normalize_state_idem_witness :
    normalize_state "سلام" ≠ "nan" ∧
    normalize_state (normalize_state "سلام") = normalize_state "سلام" :=
  ⟨by decide, C9_normalize_state_idem.1 "سلام" (by decide)⟩

theorem search_customer_empty_index (q : String) (mode : SearchMode)
    (ms : ℚ) : search_customer [] q mode ms = [] := by
  unfold search_customer
  by_cases h : trimWs q.toList = []
  · rw [if_pos h]
  · rw [if_neg h]
    rfl

/-- C3 (counterexample): the claim is false; searching before the index
is built does not fail.  On the freshly initialized processor (empty
`customer_index`, no processed data) `search_customer` returns normally
with the empty result list instead of raising a not-ready error. -/
theorem C3_counterexample :
    searchCustomerOp initialState "احمد" SearchMode.auto 60 =
      Except.ok [] := by
  show Except.ok (search_customer [] "احمد" SearchMode.auto 60) = _
  rw [search_customer_empty_index]

/-- C3 (amended): searching before the index has been built returns
normally with the empty result list, for every query, mode and minimum
score (the `__init__` index is the empty dict and the method has no
readiness check); only `find_lost_customers` fails with the not-ready
error when no data has been processed. -/
theorem C3_search_before_build :
    (∀ (q : String) (mode : SearchMode) (ms : ℚ),
      searchCustomerOp initialState q mode ms = Except.ok []) ∧
    (∀ (aS aE sS sE : Int) (minKw t : ℚ) (minP : Nat),
      findLostOp initialState aS aE sS sE minKw t minP =
        Except.error "ابتدا داده‌ها را پردازش کنید.") := by
  constructor
  · intro q mode ms
    show Except.ok (search_customer [] q mode ms) = _
    rw [search_customer_empty_index]
  · intro aS aE sS sE minKw t minP
    rfl

/-- C7 (confirmed): under `AUTO` mode, a (non-empty after trimming) query
whose normalized form is a substring of the customer's normalized name
scores at least 95 (100 on equality, 95 on proper containment). -/
theorem C7_auto_substring_score (info : CustomerInfo) (q : String)
    (_hq : trimWs q.toList ≠ [])
    (hsub : isSubstrOf (normalize_text q).toList info.normalizedName = true) :
    (95 : ℚ) ≤ modeScore SearchMode.auto (normalize_text q).toList
      (splitWs (normalize_text q).toList) info := by
  show (95 : ℚ) ≤ autoScore (normalize_text q).toList
    (splitWs (normalize_text q).toList) info.normalizedName info.keywords
  unfold autoScore
  by_cases he : info.normalizedName = (normalize_text q).toList
  · rw [if_pos he]
    norm_num
  · rw [if_neg he, if_pos hsub]

unseal Rat.mul Rat.inv Rat.add Rat.sub Rat.ofScientific in
/-- C7 (witness): the query `"Ali"` (normalized `"ali"`) is a substring
of the indexed normalized name `"ali co"` and scores 95. -/
theorem C7_auto_substring_score_witness :
    trimWs "Ali".toList ≠ [] ∧
    isSubstrOf (normalize_text "Ali").toList
      (⟨"ali co".toList, [], 0, 0, 0, [], [], [], [], [], [], 0⟩ :
        CustomerInfo).normalizedName = true ∧
    (95 : ℚ) ≤ modeScore SearchMode.auto (normalize_text "Ali").toList
      (splitWs (normalize_text "Ali").toList)
      ⟨"ali co".toList, [], 0, 0, 0, [], [], [], [], [], [], 0⟩ :=
  ⟨by decide, by decide,
    C7_auto_substring_score
      ⟨"ali co".toList, [], 0, 0, 0, [], [], [], [], [], [], 0⟩ "Ali"
      (by decide) (by decide)⟩

unseal Rat.mul Rat.inv Rat.add Rat.sub Rat.ofScientific in
theorem round2_zero : round2 0 = 0 := by decide

theorem exact_score_nonneg (qn : List Char) (qkws : List (List Char))
    (info : CustomerInfo) :
    (0 : ℚ) ≤ modeScore SearchMode.exact qn qkws info := by
  show (0 : ℚ) ≤ if info.normalizedName = qn then 100 else 0
  by_cases h : info.normalizedName = qn
  · rw [if_pos h]; norm_num
  · rw [if_neg h]

theorem filterMap_exact_all_kept (qn : List Char) (qkws : List (List Char)) :
    ∀ idx : List (String × CustomerInfo),
      (idx.filterMap (fun p =>
        if (0 : ℚ) ≤ modeScore SearchMode.exact qn qkws p.2 then
          some (mkResult p.1 (modeScore SearchMode.exact qn qkws p.2) p.2)
        else none)) =
      idx.map (fun p =>
        mkResult p.1 (modeScore SearchMode.exact qn qkws p.2) p.2) := by
  intro idx
  induction idx with
  | nil => rfl
  | cons p ps ih =>
    rw [List.filterMap_cons, List.map_cons,
      if_pos (exact_score_nonneg qn qkws p.2), ih]

/-- C10 (confirmed): in `EXACT` mode with `min_score` = 0, every indexed
customer yields one `SearchResult`: a non-matching customer scores 0, and
`0 >= min_score` passes the filter, so it is included rather than
excluded. -/
theorem C10_exact_min_zero_keeps_all (idx : List (String × CustomerInfo))
    (q : String) (hq : trimWs q.toList ≠ []) :
    (search_customer idx q SearchMode.exact 0).length = idx.length ∧
    ∀ p ∈ idx, ∃ r ∈ search_customer idx q SearchMode.exact 0,
      r.customer_name = p.1 ∧
      (p.2.normalizedName ≠ (normalize_text q).toList →
        r.match_score = 0) := by
  have hrw : search_customer idx q SearchMode.exact 0 =
      sortByScoreDesc (idx.map (fun p =>
        mkResult p.1 (modeScore SearchMode.exact (normalize_text q).toList
          (splitWs (normalize_text q).toList) p.2) p.2)) := by
    unfold search_customer
    rw [if_neg hq]
    show sortByScoreDesc (idx.filterMap (fun p =>
        if (0 : ℚ) ≤ modeScore SearchMode.exact (normalize_text q).toList
            (splitWs (normalize_text q).toList) p.2 then
          some (mkResult p.1 (modeScore SearchMode.exact
            (normalize_text q).toList
            (splitWs (normalize_text q).toList) p.2) p.2)
        else none)) = _
    rw [filterMap_exact_all_kept]
  constructor
  · rw [hrw, length_sortByScoreDesc, List.length_map]
  · intro p hp
    refine ⟨mkResult p.1 (modeScore SearchMode.exact
      (normalize_text q).toList
      (splitWs (normalize_text q).toList) p.2) p.2, ?_, rfl, ?_⟩
    · rw [hrw, mem_sortByScoreDesc]
      exact List.mem_map.mpr ⟨p, hp, rfl⟩
    · intro hne
      show round2 (modeScore SearchMode.exact (normalize_text q).toList
        (splitWs (normalize_text q).toList) p.2) = 0
      have hz : modeScore SearchMode.exact (normalize_text q).toList
          (splitWs (normalize_text q).toList) p.2 = 0 := by
        show (if p.2.normalizedName = (normalize_text q).toList then
          (100 : ℚ) else 0) = 0
        rw [if_neg hne]
      rw [hz, round2_zero]

unseal Rat.mul Rat.inv Rat.add Rat.sub Rat.ofScientific in
/-- C10 (witness): an index with the single customer `"علی"` queried in
`EXACT` mode with the non-matching query `"رضا"` and `min_score` 0
returns exactly one result (at score 0). -/
theorem C10_exact_min_zero_keeps_all_witness :
    trimWs "رضا".toList ≠ [] ∧
    ((search_customer
        [("علی", ⟨"علی".toList, ["علی".toList], 3, 1, 2, [1395], [2],
          [], [], [], [], 0⟩)] "رضا" SearchMode.exact 0).length = 1 ∧
      ∀ p ∈ [(("علی",
          ⟨"علی".toList, ["علی".toList], 3, 1, 2, [1395], [2],
            [], [], [], [], 0⟩) : String × CustomerInfo)],
        ∃ r ∈ search_customer
          [("علی", ⟨"علی".toList, ["علی".toList], 3, 1, 2, [1395], [2],
            [], [], [], [], 0⟩)] "رضا" SearchMode.exact 0,
          r.customer_name = p.1 ∧
          (p.2.normalizedName ≠ (normalize_text "رضا").toList →
            r.match_score = 0)) :=
  ⟨by decide,
    C10_exact_min_zero_keeps_all
      [("علی", ⟨"علی".toList, ["علی".toList], 3, 1, 2, [1395], [2],
        [], [], [], [], 0⟩)] "رضا" (by decide)⟩
